import Mathlib

/-!
Verification development for the `tilesthingeringy` repository.

Two subsystems are embedded shallowly:

* the time-based property animator (`src/animator.rs`): `ValueAnimation`
  (easing curves), `AnimatedValue` (one windowed property), `Animator`;
  `f32` values are modelled as real numbers, `Instant`/`Duration` as real
  numbers measured in seconds;
* the retained-mode UI tree (`src/ui.rs`): `ElementId` paths, `UiElement`
  intrinsic data, `UiElementGlobal` cached geometry, `UiElementInner`
  nodes and the `Ui` forest; `f32` coordinates are modelled as rationals
  so that concrete scenarios evaluate.

Rust panics (assertion failures, out-of-bounds indexing) are modelled by
`Option`-valued operations returning `none`.
-/

namespace Tiles

/-! ## Animator data model, from `src/animator.rs` -/

noncomputable section

/-- Rust `f32::clamp(lo, hi)`: `min (max x lo) hi`.  (The Rust version
panics when `lo > hi`; all uses here have `lo ≤ hi`.) -/
def rclamp (x lo hi : ℝ) : ℝ := min (max x lo) hi

/-- `ValueAnimation` from `src/animator.rs:13-18`: the easing curve. -/
inductive ValueAnimation where
  | Linear
  | EaseIn (strength : ℝ)
  | EaseOut (strength : ℝ)

/-- `ValueAnimation::apply` (`src/animator.rs:22-32`): clamp the input to
`[0,1]`, then apply the curve; `powf` is modelled by `Real.rpow`. -/
def ValueAnimation.apply : ValueAnimation → ℝ → ℝ
  | .Linear, value => rclamp value 0 1
  | .EaseIn strength, value => (rclamp value 0 1) ^ strength
  | .EaseOut strength, value => 1 - (1 - rclamp value 0 1) ^ strength

/-- `ValueAnimation::reversed` (`src/animator.rs:34-42`). -/
def ValueAnimation.reversed : ValueAnimation → ValueAnimation
  | .Linear => .Linear
  | .EaseIn x => .EaseOut x
  | .EaseOut x => .EaseIn x

/-- The spec's precondition `strength > 0` on easing curves. -/
def ValueAnimation.strengthPos : ValueAnimation → Prop
  | .Linear => True
  | .EaseIn s => 0 < s
  | .EaseOut s => 0 < s

/-- `AnimationState` from `src/animator.rs:45-49`. -/
inductive AnimationState where
  | Playing
  | Over
deriving DecidableEq

variable {T : Type}

/-- `AnimatedValue<T>` (`src/animator.rs:51-58`).  The Rust
`range: RangeInclusive<f32>` is split into `rangeStart`/`rangeEnd` and
`duration: RangeInclusive<f32>` (the time window) into
`durationStart`/`durationEnd`. -/
structure AnimatedValue (T : Type) where
  id : T
  rangeStart : ℝ
  rangeEnd : ℝ
  curve : ValueAnimation
  durationStart : ℝ
  durationEnd : ℝ

/-- The conjunction of the three assertions in `AnimatedValue::validate`
(`src/animator.rs:62-68`). -/
def AnimatedValue.validOk (v : AnimatedValue T) : Prop :=
  v.durationStart < v.durationEnd ∧ 0 ≤ v.durationStart ∧ v.durationEnd ≤ 1

/-- `AnimatedValue::reverse` (`src/animator.rs:70-75`): reversed curve,
swapped value range, complemented time window. -/
def AnimatedValue.reverse (v : AnimatedValue T) : AnimatedValue T :=
  { v with
    curve := v.curve.reversed
    rangeStart := v.rangeEnd
    rangeEnd := v.rangeStart
    durationStart := 1 - v.durationEnd
    durationEnd := 1 - v.durationStart }

/-- `AnimatedValue::total_duration` (`src/animator.rs:77-80`). -/
def AnimatedValue.total_duration (v : AnimatedValue T) : ℝ :=
  v.durationEnd - v.durationStart

/-- `Animator<T>` (`src/animator.rs:83-89`); `duration` is the total
wall-clock duration in seconds, `start` the start `Instant` in seconds. -/
structure Animator (T : Type) where
  values : List (AnimatedValue T)
  duration : ℝ
  start : ℝ

open Classical in
/-- `Animator::new` (`src/animator.rs:93-99`): validates every value
(a failed assertion is modelled by `none`), then starts "at the end"
(`start = now - duration`). -/
def Animator.new (values : List (AnimatedValue T)) (duration : ℝ) (now : ℝ) :
    Option (Animator T) :=
  if ∀ v ∈ values, v.validOk then
    some { values := values, duration := duration, start := now - duration }
  else
    none

/-- `Animator::reset` (`src/animator.rs:101-104`). -/
def Animator.reset (a : Animator T) (now : ℝ) : Animator T :=
  { a with start := now }

/-- `Animator::reversed` (`src/animator.rs:106-115`): clones `self`
(so `duration` and `start` are copied verbatim) and reverses every value. -/
def Animator.reversed (a : Animator T) : Animator T :=
  { a with values := a.values.map AnimatedValue.reverse }

/-- `Instant::elapsed` at wall-clock time `now` (never negative). -/
def Animator.elapsed (a : Animator T) (now : ℝ) : ℝ :=
  max (now - a.start) 0

/-- `Animator::is_playing` (`src/animator.rs:149-152`):
`self.start.elapsed() <= self.duration`. -/
def Animator.isPlaying (a : Animator T) (now : ℝ) : Prop :=
  a.elapsed now ≤ a.duration

/-- `Animator::lerp` (`src/animator.rs:154-157`). -/
def lerp (rangeStart rangeEnd a : ℝ) : ℝ :=
  rangeStart * (1 - a) + rangeEnd * a

/-- The value `Animator::animate` (`src/animator.rs:117-147`) passes to
`target.set` for one `AnimatedValue` at global progress `timepoint`:
clamp `timepoint` to the window, rescale onto `[0,1]`, ease, lerp. -/
def propertyValue (v : AnimatedValue T) (timepoint : ℝ) : ℝ :=
  lerp v.rangeStart v.rangeEnd
    (v.curve.apply
      ((rclamp timepoint v.durationStart v.durationEnd - v.durationStart) /
        v.total_duration))

/-- The `timepoint` computed at the top of `Animator::animate`:
`(elapsed / duration).min(1.0)`. -/
def Animator.globalProgress (a : Animator T) (now : ℝ) : ℝ :=
  min (a.elapsed now / a.duration) 1

/-- The ordered list of `(id, value)` pairs that one `Animator::animate`
call at global progress `g` passes to `target.set`. -/
def Animator.animateValues (a : Animator T) (g : ℝ) : List (T × ℝ) :=
  a.values.map (fun v => (v.id, propertyValue v g))

/-- The `AnimationState` returned by `Animator::animate`
(`src/animator.rs:140-146`): `Over` iff `timepoint >= 1.0`. -/
def Animator.animateState (a : Animator T) (now : ℝ) : AnimationState :=
  if 1 ≤ a.globalProgress now then .Over else .Playing

end

/-! ## UI data model, from `src/ui.rs` (coordinates: `f32` modelled as `ℚ`) -/

/-- `Point2<T>` from `src/point.rs`. -/
structure Point2 (α : Type) where
  x : α
  y : α
deriving DecidableEq, Repr

instance {α : Type} [Add α] : Add (Point2 α) :=
  ⟨fun a b => ⟨a.x + b.x, a.y + b.y⟩⟩

instance {α : Type} [Mul α] : Mul (Point2 α) :=
  ⟨fun a b => ⟨a.x * b.x, a.y * b.y⟩⟩

/-- `ElementId` (`src/ui.rs:13-18`), the Rust struct
`{ id: usize, child: Option<Box<ElementId>> }` written as a plain
inductive: `last i` is `{id: i, child: None}` and `cons i t` is
`{id: i, child: Some t}`. -/
inductive ElementId where
  | last (id : ℕ)
  | cons (id : ℕ) (child : ElementId)
deriving DecidableEq, Repr

/-- `ElementId::push` / `ElementId::set_tail` (`src/ui.rs:27-45`),
functionally: append `child_id` at the deepest level of the path. -/
def ElementId.push : ElementId → ℕ → ElementId
  | .last i, child_id => .cons i (.last child_id)
  | .cons i t, child_id => .cons i (t.push child_id)

/-- `UiElementType` (`src/ui.rs:53-57`). -/
inductive UiElementType where
  | Panel
  | Button
deriving DecidableEq, Repr

/-- `UiElement` (`src/ui.rs:59-65`): the intrinsic (parent-relative)
data of a node; `TextureId` is an opaque `ℕ`. -/
structure UiElement where
  kind : UiElementType
  pos : Point2 ℚ
  size : Point2 ℚ
  texture : ℕ
deriving DecidableEq, Repr

/-- `UiElementGlobal` (`src/ui.rs:67-72`): intrinsic data plus the cached
absolute geometry. -/
structure UiElementGlobal where
  inner : UiElement
  global_size : Point2 ℚ
  global_pos : Point2 ℚ
deriving DecidableEq, Repr

/-- `UiElementGlobal::intersects` (`src/ui.rs:76-80`): inclusive
containment on both axes (`RangeInclusive::contains`). -/
def UiElementGlobal.intersects (e : UiElementGlobal) (pos : Point2 ℚ) : Prop :=
  (e.global_pos.x ≤ pos.x ∧ pos.x ≤ e.global_pos.x + e.global_size.x) ∧
    (e.global_pos.y ≤ pos.y ∧ pos.y ≤ e.global_pos.y + e.global_size.y)

instance (e : UiElementGlobal) (pos : Point2 ℚ) : Decidable (e.intersects pos) :=
  inferInstanceAs (Decidable (_ ∧ _))

/-- `UiAnimatableId` (`src/ui.rs:83-91`). -/
inductive UiAnimatableId where
  | ScaleX
  | ScaleY
  | PositionX
  | PositionY
deriving DecidableEq, Repr

/-- `UiElementInner` (`src/ui.rs:93-98`) without the non-owning
`parent` back-reference: in this functional embedding the update that
Rust dispatches upward through `parent` is performed at the parent while
descending along the `ElementId` path, see `Ui.set`. -/
inductive UiElementInner where
  | mk (element : UiElementGlobal) (children : List UiElementInner)

/-- The `element` field of a node. -/
def UiElementInner.elementOf : UiElementInner → UiElementGlobal
  | .mk element _ => element

/-- The `children` field of a node. -/
def UiElementInner.childrenOf : UiElementInner → List UiElementInner
  | .mk _ children => children

/-- `UiElementInner::new_inner` (`src/ui.rs:117-132`) as used by
`new_parent`/`new_child`: the cached global geometry is initialized to
the intrinsic geometry. -/
def UiElementInner.newNode (element : UiElement) : UiElementInner :=
  .mk { inner := element, global_size := element.size, global_pos := element.pos } []

/-- `UiElementInner::update_child` (`src/ui.rs:149-162`) together with the
`update_children` loop (`src/ui.rs:164-170`), expressed functionally: the
child whose parent has cached global geometry `gpos`/`gsize` gets
`global_pos = gpos + inner.pos * gsize`, `global_size = inner.size * gsize`,
and the recomputation recurses into all of its children. -/
def updateChild (gpos gsize : Point2 ℚ) : UiElementInner → UiElementInner
  | .mk el ch =>
    let cpos := gpos + el.inner.pos * gsize
    let csize := el.inner.size * gsize
    .mk { el with global_pos := cpos, global_size := csize }
      (ch.attach.map (fun c => updateChild cpos csize c.1))
termination_by n => sizeOf n
decreasing_by
  have h1 := List.sizeOf_lt_of_mem c.2
  simp only [UiElementInner.mk.sizeOf_spec]
  omega

/-- The root branch of `UiElementInner::update` (`src/ui.rs:172-184`):
`global := intrinsic`, then recompute all children. -/
def updateRoot : UiElementInner → UiElementInner
  | .mk el ch =>
    let gpos := el.inner.pos
    let gsize := el.inner.size
    .mk { el with global_pos := gpos, global_size := gsize }
      (ch.map (updateChild gpos gsize))

/-- The intrinsic-geometry mutation performed by
`impl Animatable for UiElementInner::set` (`src/ui.rs:220-240`) before it
calls `self.update()`. -/
def mutateScalar (e : UiElement) (id : UiAnimatableId) (value : ℚ) : UiElement :=
  match id with
  | .ScaleX => { e with size := ⟨value, e.size.y⟩ }
  | .ScaleY => { e with size := ⟨e.size.x, value⟩ }
  | .PositionX => { e with pos := ⟨value, e.pos.y⟩ }
  | .PositionY => { e with pos := ⟨e.pos.x, value⟩ }

/-- `mutateScalar` lifted to a node (children and cached globals are not
touched by the match in `set`; they are recomputed afterwards by
`update`). -/
def mutateIntrinsic (n : UiElementInner) (id : UiAnimatableId) (value : ℚ) :
    UiElementInner :=
  .mk { n.elementOf with inner := mutateScalar n.elementOf.inner id value }
    n.childrenOf

/-- `UiElementInner::push` (`src/ui.rs:134-147`): append a new child
built by `new_child`, then `update_child` it against the parent's current
global geometry.  Returns the updated parent and the new child's index. -/
def pushChildNode (n : UiElementInner) (element : UiElement) :
    UiElementInner × ℕ :=
  let id := n.childrenOf.length
  let child := updateChild n.elementOf.global_pos n.elementOf.global_size
    (UiElementInner.newNode element)
  (.mk n.elementOf (n.childrenOf ++ [child]), id)

/-- `UiElementInner::get` (`src/ui.rs:186-197`) and the identical
`Ui::get` (`src/ui.rs:277-288`): resolve a path against a children list.
Rust's panicking out-of-bounds indexing is modelled by `none`. -/
def getFrom (children : List UiElementInner) : ElementId → Option UiElementInner
  | .last i => children[i]?
  | .cons i rest =>
    match children[i]? with
    | none => none
    | some n => getFrom n.childrenOf rest

/-- Replace the node addressed by a path with `f` of it (the functional
rendering of mutating through the `Rc<RefCell<_>>` handle returned by
`Ui::get`). -/
def modifyFrom (children : List UiElementInner) (f : UiElementInner → UiElementInner) :
    ElementId → Option (List UiElementInner)
  | .last i =>
    match children[i]? with
    | none => none
    | some n => some (children.set i (f n))
  | .cons i rest =>
    match children[i]? with
    | none => none
    | some n =>
      (modifyFrom n.childrenOf f rest).map
        (fun ch' => children.set i (.mk n.elementOf ch'))

/-- The `Ui` forest (`src/ui.rs:246-251`): the ordered list of root
nodes (`window`/`assets` handles are rendering collaborators, out of
scope). -/
abbrev Ui := List UiElementInner

/-- `Ui::push` (`src/ui.rs:260-267`): append a root (whose global
geometry is its intrinsic geometry, by `new_parent`), return its
one-level id. -/
def Ui.push (u : Ui) (element : UiElement) : Ui × ElementId :=
  (u ++ [UiElementInner.newNode element], .last u.length)

/-- `Ui::push_child` (`src/ui.rs:269-274`): resolve the parent, append
the new child via `UiElementInner::push`, return `parent_id.push(id)`. -/
def Ui.pushChild (u : Ui) (parent_id : ElementId) (element : UiElement) :
    Option (Ui × ElementId) :=
  match getFrom u parent_id with
  | none => none
  | some p =>
    (modifyFrom u (fun n => (pushChildNode n element).1) parent_id).map
      (fun u' => (u', parent_id.push p.childrenOf.length))

/-- `Animatable::set` on the node addressed by `path` inside a parent
node `n` (`src/ui.rs:220-243` plus the non-root branch of `update`,
`src/ui.rs:174-176`): mutate the target's intrinsic scalar, then have its
parent `update_child` it — i.e. recompute the target's subtree from the
parent's cached global geometry. -/
def setFromNode : UiElementInner → ElementId → UiAnimatableId → ℚ →
    Option UiElementInner
  | .mk el ch, .last i, id, value =>
    match ch[i]? with
    | none => none
    | some c =>
      some (.mk el
        (ch.set i
          (updateChild el.global_pos el.global_size
            (mutateIntrinsic c id value))))
  | .mk el ch, .cons i rest, id, value =>
    match ch[i]? with
    | none => none
    | some c =>
      (setFromNode c rest id value).map
        (fun c' => .mk el (ch.set i c'))

/-- `Animatable::set` on the node addressed by `path` in the forest
(`src/ui.rs:220-243`): for a root the `update` call takes the root branch
(`src/ui.rs:177-183`), otherwise the parent recomputes the child's
subtree. -/
def Ui.set (u : Ui) (path : ElementId) (id : UiAnimatableId) (value : ℚ) :
    Option Ui :=
  match path with
  | .last i =>
    match u[i]? with
    | none => none
    | some r => some (List.set u i (updateRoot (mutateIntrinsic r id value)))
  | .cons i rest =>
    match u[i]? with
    | none => none
    | some r => (setFromNode r rest id value).map (fun r' => List.set u i r')

/-- One mutating call against the `Ui` API. -/
inductive UiOp where
  | push (element : UiElement)
  | pushChild (parent_id : ElementId) (element : UiElement)
  | setVal (path : ElementId) (id : UiAnimatableId) (value : ℚ)

/-- Run one `UiOp`. -/
def applyOp (u : Ui) : UiOp → Option Ui
  | .push e => some (Ui.push u e).1
  | .pushChild pid e => (Ui.pushChild u pid e).map Prod.fst
  | .setVal path id v => Ui.set u path id v

/-- Run a sequence of `UiOp`s, propagating failure. -/
def applyOps (u : Ui) : List UiOp → Option Ui
  | [] => some u
  | op :: rest => (applyOp u op).bind (fun u' => applyOps u' rest)

/-- The §3 invariant for a non-root node whose parent has cached global
geometry `gpos`/`gsize`: cached global geometry agrees with the intrinsic
geometry composed through the parent, recursively. -/
inductive NodeConsistent : Point2 ℚ → Point2 ℚ → UiElementInner → Prop where
  | mk {gpos gsize : Point2 ℚ} {el : UiElementGlobal} {ch : List UiElementInner}
      (hpos : el.global_pos = gpos + el.inner.pos * gsize)
      (hsize : el.global_size = el.inner.size * gsize)
      (hch : ∀ c ∈ ch, NodeConsistent el.global_pos el.global_size c) :
      NodeConsistent gpos gsize (.mk el ch)

/-- The §3 invariant for a root node: cached global geometry equals the
intrinsic geometry, children consistent against it. -/
inductive RootConsistent : UiElementInner → Prop where
  | mk {el : UiElementGlobal} {ch : List UiElementInner}
      (hpos : el.global_pos = el.inner.pos)
      (hsize : el.global_size = el.inner.size)
      (hch : ∀ c ∈ ch, NodeConsistent el.global_pos el.global_size c) :
      RootConsistent (.mk el ch)

/-- Whole-forest geometry consistency. -/
def uiConsistent (u : Ui) : Prop := ∀ r ∈ u, RootConsistent r

/-- `q` addresses a node inside the subtree rooted at the node addressed
by `p` (including `p` itself). -/
def inSubtree : ElementId → ElementId → Prop
  | .last i, .last j => i = j
  | .last i, .cons j _ => i = j
  | .cons i r, .cons j r' => i = j ∧ inSubtree r r'
  | .cons _ _, .last _ => False

mutual

/-- `Ui::click`'s per-node step (`src/ui.rs:322-344`), the closure passed
to `UiElementInner::try_for_each_element` (`src/ui.rs:199-215`): a
`Button` whose rectangle contains `pos` breaks with its id, anything else
continues into the children in order. -/
def clickNode (pos : Point2 ℚ) (id : ElementId) : UiElementInner → Option ElementId
  | .mk el ch =>
    if el.inner.kind = .Button ∧ el.intersects pos then some id
    else clickChildren pos id 0 ch

/-- The `children.iter().enumerate().try_for_each` loop of
`try_for_each_element`, with `i` the index of the first element of the
remaining list. -/
def clickChildren (pos : Point2 ℚ) (id : ElementId) (i : ℕ) :
    List UiElementInner → Option ElementId
  | [] => none
  | c :: rest =>
    match clickNode pos (id.push i) c with
    | some x => some x
    | none => clickChildren pos id (i + 1) rest

end

/-- `Ui::click` (`src/ui.rs:322-344`): walk the roots in order
(`Ui::try_for_each_element`, `src/ui.rs:346-356`), each with
`ElementId::new(index)`, returning the first break. -/
def Ui.click (u : Ui) (pos : Point2 ℚ) : Option ElementId :=
  clickRoots pos 0 u
where
  clickRoots (pos : Point2 ℚ) (i : ℕ) : List UiElementInner → Option ElementId
    | [] => none
    | r :: rest =>
      match clickNode pos (.last i) r with
      | some x => some x
      | none => clickRoots pos (i + 1) rest

mutual

/-- The full pre-order enumeration of a subtree as the spec describes the
`draw`/`click` traversal: the node itself, then each child's subtree in
order, depth-first left-to-right. -/
def preorderNode (id : ElementId) : UiElementInner → List (ElementId × UiElementGlobal)
  | .mk el ch => (id, el) :: preorderChildren id 0 ch

/-- Pre-order enumeration of a children list whose first element has
index `i`. -/
def preorderChildren (id : ElementId) (i : ℕ) :
    List UiElementInner → List (ElementId × UiElementGlobal)
  | [] => []
  | c :: rest => preorderNode (id.push i) c ++ preorderChildren id (i + 1) rest

end

/-- Pre-order enumeration of the whole forest in insertion order. -/
def preorderRoots (i : ℕ) : Ui → List (ElementId × UiElementGlobal)
  | [] => []
  | r :: rest => preorderNode (.last i) r ++ preorderRoots (i + 1) rest

/-- The cached element (intrinsic data plus global geometry) of the node
addressed by `q` in a children list (or forest). -/
def elemAt (children : List UiElementInner) (q : ElementId) : Option UiElementGlobal :=
  (getFrom children q).map UiElementInner.elementOf

/-- The intrinsic data of the node addressed by `q` in a children list
(or forest). -/
def innerAt (children : List UiElementInner) (q : ElementId) : Option UiElement :=
  (getFrom children q).map (fun m => m.elementOf.inner)

/-- The hit condition as the SPEC words it (for the refinement statement
about `Ui::click`): the node's kind is interactive (`Button`) and the
pointer lies within its global rectangle with inclusive bounds on all
four edges. -/
def specClickHit (pos : Point2 ℚ) (pr : ElementId × UiElementGlobal) : Bool :=
  decide (pr.2.inner.kind = UiElementType.Button ∧
    pr.2.global_pos.x ≤ pos.x ∧ pos.x ≤ pr.2.global_pos.x + pr.2.global_size.x ∧
    pr.2.global_pos.y ≤ pos.y ∧ pos.y ≤ pr.2.global_pos.y + pr.2.global_size.y)

/-! ## Helper lemmas: clamping, easing, lerp -/

theorem rclamp_mem (x : ℝ) {lo hi : ℝ} (h : lo ≤ hi) :
    lo ≤ rclamp x lo hi ∧ rclamp x lo hi ≤ hi := by
  unfold rclamp
  constructor
  · exact le_min (le_max_right x lo) h
  · exact min_le_right _ _

theorem rclamp_eq_lo {x lo hi : ℝ} (hx : x ≤ lo) (h : lo ≤ hi) :
    rclamp x lo hi = lo := by
  unfold rclamp
  rw [max_eq_right hx, min_eq_left h]

theorem rclamp_eq_hi {x lo hi : ℝ} (hx : hi ≤ x) (h : lo ≤ hi) :
    rclamp x lo hi = hi := by
  unfold rclamp
  rw [max_eq_left (h.trans hx), min_eq_right hx]

theorem rclamp_eq_self {x lo hi : ℝ} (h1 : lo ≤ x) (h2 : x ≤ hi) :
    rclamp x lo hi = x := by
  unfold rclamp
  rw [max_eq_left h1, min_eq_left h2]

theorem one_sub_rclamp (x : ℝ) {lo hi : ℝ} (h : lo ≤ hi) :
    1 - rclamp x lo hi = rclamp (1 - x) (1 - hi) (1 - lo) := by
  unfold rclamp
  simp only [min_def, max_def]
  split_ifs <;> linarith

theorem ValueAnimation.apply_zero {c : ValueAnimation} (h : c.strengthPos) :
    c.apply 0 = 0 := by
  have h01 : rclamp (0:ℝ) 0 1 = 0 := rclamp_eq_self le_rfl zero_le_one
  cases c with
  | Linear => simpa [ValueAnimation.apply] using h01
  | EaseIn s =>
    simp only [ValueAnimation.strengthPos] at h
    simp [ValueAnimation.apply, h01, Real.zero_rpow (ne_of_gt h)]
  | EaseOut s =>
    simp [ValueAnimation.apply, h01, Real.one_rpow]

theorem ValueAnimation.apply_one {c : ValueAnimation} (h : c.strengthPos) :
    c.apply 1 = 1 := by
  have h01 : rclamp (1:ℝ) 0 1 = 1 := rclamp_eq_self zero_le_one le_rfl
  cases c with
  | Linear => simpa [ValueAnimation.apply] using h01
  | EaseIn s =>
    simp [ValueAnimation.apply, h01, Real.one_rpow]
  | EaseOut s =>
    simp only [ValueAnimation.strengthPos] at h
    simp [ValueAnimation.apply, h01, Real.zero_rpow (ne_of_gt h)]

theorem ValueAnimation.apply_mem {c : ValueAnimation} (h : c.strengthPos) (t : ℝ) :
    0 ≤ c.apply t ∧ c.apply t ≤ 1 := by
  obtain ⟨h0, h1⟩ := rclamp_mem t (zero_le_one (α := ℝ))
  cases c with
  | Linear => exact ⟨h0, h1⟩
  | EaseIn s =>
    exact ⟨Real.rpow_nonneg h0 s, Real.rpow_le_one h0 h1 (le_of_lt h)⟩
  | EaseOut s =>
    have hn : (0:ℝ) ≤ 1 - rclamp t 0 1 := by linarith
    have hl : 1 - rclamp t 0 1 ≤ 1 := by linarith
    have := Real.rpow_nonneg hn s
    have := Real.rpow_le_one hn hl (le_of_lt h)
    constructor <;> simp only [ValueAnimation.apply] <;> linarith

theorem lerp_zero (a b : ℝ) : lerp a b 0 = a := by simp [lerp]

theorem lerp_one (a b : ℝ) : lerp a b 1 = b := by simp [lerp]

theorem lerp_mem {a b t : ℝ} (h0 : 0 ≤ t) (h1 : t ≤ 1) :
    min a b ≤ lerp a b t ∧ lerp a b t ≤ max a b := by
  unfold lerp
  rcases le_total a b with h | h
  · rw [min_eq_left h, max_eq_right h]
    constructor <;> nlinarith
  · rw [min_eq_right h, max_eq_left h]
    constructor <;> nlinarith

theorem AnimatedValue.not_validOk {T : Type} (v : AnimatedValue T) :
    ¬ v.validOk ↔
      (v.durationEnd ≤ v.durationStart ∨ v.durationStart < 0 ∨ 1 < v.durationEnd) := by
  unfold AnimatedValue.validOk
  constructor
  · intro h
    by_contra hc
    push_neg at hc
    exact h ⟨hc.1, hc.2.1, hc.2.2⟩
  · rintro (h | h | h) ⟨h1, h2, h3⟩ <;> linarith

theorem ValueAnimation.reversed_involutive (c : ValueAnimation) :
    c.reversed.reversed = c := by
  cases c <;> rfl

theorem AnimatedValue.reverse_reverse {T : Type} (v : AnimatedValue T) :
    v.reverse.reverse = v := by
  cases v with
  | mk i rs re c ds de =>
    simp [AnimatedValue.reverse, ValueAnimation.reversed_involutive,
      sub_sub_cancel]

theorem Animator.reversed_twice {T : Type} (a : Animator T) :
    a.reversed.reversed = a := by
  cases a with
  | mk vs d s =>
    simp [Animator.reversed, List.map_map, Function.comp_def,
      AnimatedValue.reverse_reverse]

/-! ## Claim theorems: animator -/

/-- C9: `Curve.reversed()` is involutive for all three variants, and
reversing an `AnimatedValue` twice (as `Animator.reversed().reversed()`
does for each property) restores the original value range, curve and
time window. -/
theorem c9_reversal_involutive {T : Type} :
    (∀ c : ValueAnimation, c.reversed.reversed = c) ∧
    (∀ v : AnimatedValue T, v.reverse.reverse = v) ∧
    (∀ a : Animator T, a.reversed.reversed = a) :=
  ⟨ValueAnimation.reversed_involutive, AnimatedValue.reverse_reverse,
    Animator.reversed_twice⟩

/-- C8: `Animator::new` fails (assertion, modelled by `none`) iff some
property's window is malformed — start ≥ end, start < 0, or end > 1 — and
otherwise returns normally with the property list verbatim and
`start = now - duration`. -/
theorem c8_new_validation {T : Type} (values : List (AnimatedValue T))
    (d now : ℝ) :
    (Animator.new values d now = none ↔
      ∃ v ∈ values,
        v.durationEnd ≤ v.durationStart ∨ v.durationStart < 0 ∨
          1 < v.durationEnd) ∧
    (∀ a : Animator T, Animator.new values d now = some a →
      a.values = values ∧ a.duration = d ∧ a.start = now - d) := by
  constructor
  · unfold Animator.new
    split_ifs with h
    · simp only [reduceCtorEq, false_iff]
      rintro ⟨v, hv, hbad⟩
      exact (v.not_validOk.mpr hbad) (h v hv)
    · simp only [true_iff]
      rw [not_forall] at h
      obtain ⟨v, hv⟩ := h
      rw [Classical.not_imp] at hv
      exact ⟨v, hv.1, v.not_validOk.mp hv.2⟩
  · intro a ha
    unfold Animator.new at ha
    split_ifs at ha with h
    · cases ha
      exact ⟨rfl, rfl, rfl⟩

/-- C4 counterexample: an `Animator` constructed by `new` at wall-clock
time 1 with duration 1 and queried at that same instant (fresh, before
any `reset`) has `elapsed = duration`, so `is_playing()` returns `true`
(the code compares with `<=`) even though `elapsed < total_duration`
fails — and a fresh animator does not report `false`. -/
theorem c4_counterexample :
    Animator.new ([] : List (AnimatedValue ℕ)) 1 1 = some ⟨[], 1, 0⟩ ∧
    (Animator.mk ([] : List (AnimatedValue ℕ)) 1 0).isPlaying 1 ∧
    ¬ ((Animator.mk ([] : List (AnimatedValue ℕ)) 1 0).elapsed 1 <
        (Animator.mk ([] : List (AnimatedValue ℕ)) 1 0).duration) := by
  refine ⟨by norm_num [Animator.new], ?_, ?_⟩
  · simp [Animator.isPlaying, Animator.elapsed]
  · simp [Animator.elapsed]

/-- C4 amended: `is_playing()` is true exactly when
`elapsed ≤ total_duration` (inclusive at the right endpoint); a freshly
constructed `Animator` reports `false` at every instant strictly after
construction; after `reset` it reports `true` while at most
`total_duration` of wall-clock time has elapsed, `false` strictly
after. -/
theorem c4_playing_state {T : Type} (values : List (AnimatedValue T))
    (d now0 : ℝ) (a : Animator T)
    (hnew : Animator.new values d now0 = some a) :
    (∀ now, a.isPlaying now ↔ a.elapsed now ≤ d) ∧
    (∀ now, now0 < now → ¬ a.isPlaying now) ∧
    (∀ t0 now, t0 ≤ now → ((a.reset t0).isPlaying now ↔ now - t0 ≤ d)) := by
  unfold Animator.new at hnew
  split_ifs at hnew
  cases hnew
  refine ⟨fun now => Iff.rfl, ?_, ?_⟩
  · intro now hlt
    unfold Animator.isPlaying Animator.elapsed
    simp only [not_le]
    calc d < now - now0 + d := by linarith
    _ = now - (now0 - d) := by ring
    _ ≤ max (now - (now0 - d)) 0 := le_max_left _ _
  · intro t0 now hle
    unfold Animator.reset Animator.isPlaying Animator.elapsed
    simp only
    rw [max_eq_left (by linarith)]

/-- C4 witness: the amended statement at `values = []`, `d = 1`,
`now0 = 0`. -/
theorem c4_playing_state_witness :
    Animator.new ([] : List (AnimatedValue ℕ)) 1 0 = some ⟨[], 1, -1⟩ ∧
    ((∀ now, (Animator.mk ([] : List (AnimatedValue ℕ)) 1 (-1)).isPlaying now ↔
        (Animator.mk ([] : List (AnimatedValue ℕ)) 1 (-1)).elapsed now ≤ 1) ∧
      (∀ now, (0:ℝ) < now →
        ¬ (Animator.mk ([] : List (AnimatedValue ℕ)) 1 (-1)).isPlaying now) ∧
      (∀ t0 now, t0 ≤ now →
        (((Animator.mk ([] : List (AnimatedValue ℕ)) 1 (-1)).reset t0).isPlaying now ↔
          now - t0 ≤ 1))) :=
  ⟨by norm_num [Animator.new],
    c4_playing_state [] 1 0 ⟨[], 1, -1⟩ (by norm_num [Animator.new])⟩

/-- C5 counterexample: an `Animator` built by `new`, then `reset` at time
10, is still playing at time 10.5; its `reversed()` copy — never reset —
also reports playing at time 10.5, because `reversed` clones
`start_instant` verbatim instead of following the already-finished rule
of `new`. -/
theorem c5_counterexample :
    ((((Animator.new ([] : List (AnimatedValue ℕ)) 1 0).getD
        ⟨[], 0, 0⟩).reset 10).reversed).isPlaying (21/2) ∧
    (((Animator.new ([] : List (AnimatedValue ℕ)) 1 0).getD
        ⟨[], 0, 0⟩).reset 10).isPlaying (21/2) := by
  norm_num [Animator.new, Animator.reset, Animator.reversed,
    Animator.isPlaying, Animator.elapsed]

/-- C2 core: for a Linear-curve property with a well-ordered window,
the reversed property evaluated at `g` equals the original property
evaluated at `1 - g`. -/
theorem propertyValue_reverse_linear {T : Type} (v : AnimatedValue T) (g : ℝ)
    (hc : v.curve = .Linear) (hw : v.durationStart < v.durationEnd) :
    propertyValue v.reverse g = propertyValue v (1 - g) := by
  cases v with
  | mk i r0 r1 c w0 w1 =>
    simp only at hc hw
    subst hc
    simp only [propertyValue, AnimatedValue.reverse, AnimatedValue.total_duration,
      ValueAnimation.reversed, ValueAnimation.apply]
    have key1 : rclamp (1 - g) w0 w1 = 1 - rclamp g (1 - w1) (1 - w0) := by
      rw [one_sub_rclamp g (show (1:ℝ) - w1 ≤ 1 - w0 by linarith)]
      norm_num
    rw [key1, show (1:ℝ) - w0 - (1 - w1) = w1 - w0 from by ring]
    have hden : w1 - w0 ≠ 0 := ne_of_gt (sub_pos.mpr hw)
    have harg : (1 - rclamp g (1 - w1) (1 - w0) - w0) / (w1 - w0) =
        1 - (rclamp g (1 - w1) (1 - w0) - (1 - w1)) / (w1 - w0) := by
      field_simp
      ring
    rw [harg]
    rw [show rclamp (1 - (rclamp g (1 - w1) (1 - w0) - (1 - w1)) /
          (w1 - w0)) 0 1 =
        1 - rclamp ((rclamp g (1 - w1) (1 - w0) - (1 - w1)) /
          (w1 - w0)) 0 1 by
      rw [one_sub_rclamp _ (zero_le_one (α := ℝ))]
      norm_num]
    unfold lerp
    ring

/-- C2: for an Animator whose properties all use the Linear curve (with
the windows well-ordered, as `new` guarantees), `reversed()` produces at
global progress `g` exactly the per-property values (passed to
`target.set`) that the original produces at global progress `1 - g`. -/
theorem c2_linear_roundtrip {T : Type} (a : Animator T) (g : ℝ)
    (hall : ∀ v ∈ a.values,
      v.curve = .Linear ∧ v.durationStart < v.durationEnd)
    (hg0 : 0 ≤ g) (hg1 : g ≤ 1) :
    a.reversed.animateValues g = a.animateValues (1 - g) := by
  unfold Animator.animateValues Animator.reversed
  simp only [List.map_map]
  refine List.map_congr_left ?_
  intro v hv
  obtain ⟨hc, hw⟩ := hall v hv
  show (v.reverse.id, propertyValue v.reverse g) = (v.id, propertyValue v (1 - g))
  rw [propertyValue_reverse_linear v g hc hw]
  rfl

/-- C2 witness: a single Linear property with range `2..=5` and window
`0..=1/2`, at global progress `1/4`. -/
theorem c2_linear_roundtrip_witness :
    (∀ v ∈ (Animator.mk [AnimatedValue.mk (0:ℕ) 2 5 .Linear 0 (1/2)] 1 0).values,
      v.curve = .Linear ∧ v.durationStart < v.durationEnd) ∧
    (0:ℝ) ≤ 1/4 ∧ (1/4:ℝ) ≤ 1 ∧
    (Animator.mk [AnimatedValue.mk (0:ℕ) 2 5 .Linear 0 (1/2)] 1 0).reversed.animateValues
        (1/4) =
      (Animator.mk [AnimatedValue.mk (0:ℕ) 2 5 .Linear 0 (1/2)] 1 0).animateValues
        (1 - 1/4) :=
  ⟨by intro v hv; simp only [List.mem_singleton] at hv; subst hv; norm_num,
    by norm_num, by norm_num,
    c2_linear_roundtrip _ (1/4)
      (by intro v hv; simp only [List.mem_singleton] at hv; subst hv; norm_num)
      (by norm_num) (by norm_num)⟩

/-- C6: before its window opens a valid property holds at
`value_range.start`, after it closes at `value_range.end` (the curve is
applied at 0 resp. 1, which for positive strengths gives the range
endpoints); `propertyValue` is exactly the value `animate` passes to
`target.set`. -/
theorem c6_window_hold {T : Type} (v : AnimatedValue T) (g : ℝ)
    (hw : v.validOk) (hs : v.curve.strengthPos) :
    (g < v.durationStart → propertyValue v g = v.rangeStart) ∧
    (v.durationEnd < g → propertyValue v g = v.rangeEnd) := by
  obtain ⟨h1, h2, h3⟩ := hw
  constructor
  · intro hg
    unfold propertyValue
    rw [rclamp_eq_lo hg.le h1.le]
    simp [ValueAnimation.apply_zero hs, lerp_zero]
  · intro hg
    unfold propertyValue AnimatedValue.total_duration
    rw [rclamp_eq_hi hg.le h1.le,
      div_self (ne_of_gt (sub_pos.mpr h1)),
      ValueAnimation.apply_one hs, lerp_one]

/-- C6 witness: an `EaseIn 2` property with range `2..=5` and window
`1/4..=3/4`, before (at 0) and after (at 1) its window. -/
theorem c6_window_hold_witness :
    (AnimatedValue.mk (0:ℕ) 2 5 (.EaseIn 2) (1/4) (3/4)).validOk ∧
    (AnimatedValue.mk (0:ℕ) 2 5 (.EaseIn 2) (1/4) (3/4)).curve.strengthPos ∧
    ((0:ℝ) < 1/4 →
      propertyValue (AnimatedValue.mk (0:ℕ) 2 5 (.EaseIn 2) (1/4) (3/4)) 0 = 2) ∧
    ((3/4:ℝ) < 1 →
      propertyValue (AnimatedValue.mk (0:ℕ) 2 5 (.EaseIn 2) (1/4) (3/4)) 1 = 5) :=
  ⟨by norm_num [AnimatedValue.validOk], by norm_num [ValueAnimation.strengthPos],
    (c6_window_hold (AnimatedValue.mk (0:ℕ) 2 5 (.EaseIn 2) (1/4) (3/4)) 0
      (by norm_num [AnimatedValue.validOk])
      (by norm_num [ValueAnimation.strengthPos])).1,
    (c6_window_hold (AnimatedValue.mk (0:ℕ) 2 5 (.EaseIn 2) (1/4) (3/4)) 1
      (by norm_num [AnimatedValue.validOk])
      (by norm_num [ValueAnimation.strengthPos])).2⟩

/-- C10: for every curve with positive strength, `apply` maps every real
input into `[0,1]`; consequently each per-property value that `animate`
passes to `target.set` lies in the closed interval spanned by the
property's range endpoints, and `(id, value)` does appear in the emitted
list. -/
theorem c10_output_bounds {T : Type} :
    (∀ (c : ValueAnimation) (t : ℝ), c.strengthPos →
      0 ≤ c.apply t ∧ c.apply t ≤ 1) ∧
    (∀ (v : AnimatedValue T) (g : ℝ), v.curve.strengthPos →
      min v.rangeStart v.rangeEnd ≤ propertyValue v g ∧
        propertyValue v g ≤ max v.rangeStart v.rangeEnd) ∧
    (∀ (a : Animator T) (g : ℝ) (v : AnimatedValue T), v ∈ a.values →
      (v.id, propertyValue v g) ∈ a.animateValues g) := by
  refine ⟨fun c t h => ValueAnimation.apply_mem h t, ?_, ?_⟩
  · intro v g h
    unfold propertyValue
    obtain ⟨h0, h1⟩ := ValueAnimation.apply_mem h
      ((rclamp g v.durationStart v.durationEnd - v.durationStart) /
        v.total_duration)
    exact lerp_mem h0 h1
  · intro a g v hv
    unfold Animator.animateValues
    exact List.mem_map_of_mem _ hv

/-- C10 witness: `EaseIn 2` at input 5 (outside `[0,1]`), and an
`EaseOut 3` property with reversed range `5..=2`, window `0..=1`, at
progress `1/3`. -/
theorem c10_output_bounds_witness :
    (ValueAnimation.EaseIn 2).strengthPos ∧
    (0 ≤ (ValueAnimation.EaseIn 2).apply 5 ∧
      (ValueAnimation.EaseIn 2).apply 5 ≤ 1) ∧
    (AnimatedValue.mk (0:ℕ) 5 2 (.EaseOut 3) 0 1).curve.strengthPos ∧
    (min (5:ℝ) 2 ≤ propertyValue (AnimatedValue.mk (0:ℕ) 5 2 (.EaseOut 3) 0 1) (1/3) ∧
      propertyValue (AnimatedValue.mk (0:ℕ) 5 2 (.EaseOut 3) 0 1) (1/3) ≤ max (5:ℝ) 2) :=
  ⟨by norm_num [ValueAnimation.strengthPos],
    (c10_output_bounds (T := ℕ)).1 (.EaseIn 2) 5
      (by norm_num [ValueAnimation.strengthPos]),
    by norm_num [ValueAnimation.strengthPos],
    (c10_output_bounds (T := ℕ)).2.1 (AnimatedValue.mk (0:ℕ) 5 2 (.EaseOut 3) 0 1)
      (1/3) (by norm_num [ValueAnimation.strengthPos])⟩

/-- C5 amended: `reversed()` produces an independent `Animator` (the
original is untouched — the operation is a pure function of it) whose
`duration` and `start_instant` are copied verbatim from the original;
consequently its play state at every instant equals the original's,
rather than being not-playing until reset. -/
theorem c5_reversed_state {T : Type} :
    ∀ a : Animator T,
      a.reversed.start = a.start ∧
      a.reversed.duration = a.duration ∧
      a.reversed.values = a.values.map AnimatedValue.reverse ∧
      (∀ now, (a.reversed.isPlaying now ↔ a.isPlaying now)) := by
  intro a
  refine ⟨rfl, rfl, rfl, fun now => ?_⟩
  simp [Animator.reversed, Animator.isPlaying, Animator.elapsed]

/-! ## Helper lemmas: UI tree -/

theorem UiElementInner.strongInd (P : UiElementInner → Prop)
    (h : ∀ el ch, (∀ c ∈ ch, P c) → P (.mk el ch)) : ∀ n, P n
  | .mk el ch => h el ch (fun c _ => UiElementInner.strongInd P h c)

theorem specClickHit_iff (pos : Point2 ℚ) (id : ElementId)
    (el : UiElementGlobal) :
    specClickHit pos (id, el) = true ↔
      (el.inner.kind = .Button ∧ el.intersects pos) := by
  simp [specClickHit, UiElementGlobal.intersects, and_assoc]

theorem clickChildren_eq (pos : Point2 ℚ) (id : ElementId)
    (l : List UiElementInner)
    (hc : ∀ c ∈ l, ∀ id' : ElementId,
      clickNode pos id' c =
        ((preorderNode id' c).find? (specClickHit pos)).map Prod.fst) :
    ∀ i, clickChildren pos id i l =
      ((preorderChildren id i l).find? (specClickHit pos)).map Prod.fst := by
  induction l with
  | nil => intro i; rw [clickChildren, preorderChildren]; rfl
  | cons c rest ih =>
    intro i
    rw [clickChildren, preorderChildren, List.find?_append,
      hc c (List.mem_cons_self c rest) (id.push i)]
    cases hfind : (preorderNode (id.push i) c).find? (specClickHit pos) with
    | none =>
      simp only [Option.map_none', Option.none_orElse]
      exact ih (fun c' hc' => hc c' (List.mem_cons_of_mem c hc')) (i + 1)
    | some x => rfl

theorem clickNode_eq (pos : Point2 ℚ) :
    ∀ n : UiElementInner, ∀ id : ElementId,
      clickNode pos id n =
        ((preorderNode id n).find? (specClickHit pos)).map Prod.fst := by
  refine UiElementInner.strongInd _ ?_
  intro el ch ih id
  rw [clickNode, preorderNode]
  by_cases hhit : el.inner.kind = .Button ∧ el.intersects pos
  · rw [if_pos hhit, List.find?_cons_of_pos _ ((specClickHit_iff pos id el).mpr hhit)]
    rfl
  · rw [if_neg hhit, List.find?_cons_of_neg _ (by
      intro hcontra
      exact hhit ((specClickHit_iff pos id el).mp hcontra))]
    exact clickChildren_eq pos id ch (fun c hcmem id' => ih c hcmem id') 0

theorem clickRoots_eq (pos : Point2 ℚ) (l : List UiElementInner) :
    ∀ i, Ui.click.clickRoots pos i l =
      ((preorderRoots i l).find? (specClickHit pos)).map Prod.fst := by
  induction l with
  | nil => intro i; rw [Ui.click.clickRoots, preorderRoots]; rfl
  | cons r rest ih =>
    intro i
    rw [Ui.click.clickRoots, preorderRoots, List.find?_append,
      clickNode_eq pos r (.last i)]
    cases hfind : (preorderNode (.last i) r).find? (specClickHit pos) with
    | none =>
      simp only [Option.map_none', Option.none_orElse]
      exact ih (i + 1)
    | some x => rfl

theorem updateChild_mk (gpos gsize : Point2 ℚ) (el : UiElementGlobal)
    (ch : List UiElementInner) :
    updateChild gpos gsize (.mk el ch) =
      .mk { el with global_pos := gpos + el.inner.pos * gsize,
                    global_size := el.inner.size * gsize }
        (ch.map (updateChild (gpos + el.inner.pos * gsize)
          (el.inner.size * gsize))) := by
  rw [updateChild]
  simp [List.attach_map_coe]

theorem updateChild_inner (g s : Point2 ℚ) (n : UiElementInner) :
    (updateChild g s n).elementOf.inner = n.elementOf.inner := by
  cases n
  rw [updateChild_mk]
  rfl

theorem childrenOf_updateChild (g s : Point2 ℚ) (el : UiElementGlobal)
    (ch : List UiElementInner) :
    (updateChild g s (.mk el ch)).childrenOf =
      ch.map (updateChild (g + el.inner.pos * s) (el.inner.size * s)) := by
  rw [updateChild_mk]
  rfl

theorem updateChild_consistent :
    ∀ n : UiElementInner, ∀ g s : Point2 ℚ,
      NodeConsistent g s (updateChild g s n) := by
  refine UiElementInner.strongInd _ ?_
  intro el ch ih g s
  rw [updateChild_mk]
  refine NodeConsistent.mk rfl rfl ?_
  intro c hc
  rw [List.mem_map] at hc
  obtain ⟨c0, hc0, rfl⟩ := hc
  exact ih c0 hc0 _ _

theorem updateRoot_consistent (n : UiElementInner) :
    RootConsistent (updateRoot n) := by
  cases n with
  | mk el ch =>
    cases el with
    | mk inner gs gp =>
      show RootConsistent (.mk ⟨inner, inner.size, inner.pos⟩
        (ch.map (updateChild inner.pos inner.size)))
      refine RootConsistent.mk rfl rfl ?_
      intro c hc
      rw [List.mem_map] at hc
      obtain ⟨c0, hc0, rfl⟩ := hc
      exact updateChild_consistent c0 _ _

theorem innerAt_map_updateChild :
    ∀ (q : ElementId) (ch : List UiElementInner) (g s : Point2 ℚ),
      innerAt (ch.map (updateChild g s)) q = innerAt ch q := by
  intro q
  induction q with
  | last j =>
    intro ch g s
    unfold innerAt
    rw [getFrom, getFrom, List.getElem?_map]
    cases ch[j]? with
    | none => rfl
    | some c => simp [updateChild_inner]
  | cons j t ih =>
    intro ch g s
    unfold innerAt
    rw [getFrom, getFrom, List.getElem?_map]
    cases hj : ch[j]? with
    | none => rfl
    | some c =>
      simp only [Option.map_some']
      cases c with
      | mk el2 ch2 =>
        rw [childrenOf_updateChild]
        have := ih ch2 (g + el2.inner.pos * s) (el2.inner.size * s)
        unfold innerAt at this
        exact this

theorem pushChildNode_consistent_node (p s : Point2 ℚ) (n : UiElementInner)
    (e : UiElement) (h : NodeConsistent p s n) :
    NodeConsistent p s (pushChildNode n e).1 := by
  cases n with
  | mk el ch =>
    cases h with
    | mk hpos hsize hch =>
      show NodeConsistent p s (.mk el (ch ++
        [updateChild el.global_pos el.global_size (UiElementInner.newNode e)]))
      refine NodeConsistent.mk hpos hsize ?_
      intro c hc
      rw [List.mem_append, List.mem_singleton] at hc
      rcases hc with hmem | rfl
      · exact hch c hmem
      · exact updateChild_consistent _ _ _

theorem pushChildNode_consistent_root (n : UiElementInner) (e : UiElement)
    (h : RootConsistent n) : RootConsistent (pushChildNode n e).1 := by
  cases n with
  | mk el ch =>
    cases h with
    | mk hpos hsize hch =>
      show RootConsistent (.mk el (ch ++
        [updateChild el.global_pos el.global_size (UiElementInner.newNode e)]))
      refine RootConsistent.mk hpos hsize ?_
      intro c hc
      rw [List.mem_append, List.mem_singleton] at hc
      rcases hc with hmem | rfl
      · exact hch c hmem
      · exact updateChild_consistent _ _ _

theorem modifyFrom_consistent :
    ∀ (path : ElementId) (ch ch' : List UiElementInner)
      (f : UiElementInner → UiElementInner)
      (hf : ∀ (p2 s2 : Point2 ℚ) (m : UiElementInner),
        NodeConsistent p2 s2 m → NodeConsistent p2 s2 (f m))
      (p s : Point2 ℚ),
      modifyFrom ch f path = some ch' →
      (∀ c ∈ ch, NodeConsistent p s c) →
      ∀ c ∈ ch', NodeConsistent p s c := by
  intro path
  induction path with
  | last i =>
    intro ch ch' f hf p s h hcons c hc
    rw [modifyFrom] at h
    cases hci : ch[i]? with
    | none => rw [hci] at h; exact absurd h (by simp)
    | some m =>
      rw [hci] at h
      simp only [Option.some.injEq] at h
      subst h
      rcases List.mem_or_eq_of_mem_set hc with hmem | rfl
      · exact hcons c hmem
      · exact hf p s m (hcons m (List.getElem?_mem hci))
  | cons i rest ih =>
    intro ch ch' f hf p s h hcons c hc
    rw [modifyFrom] at h
    cases hci : ch[i]? with
    | none => rw [hci] at h; exact Option.noConfusion h
    | some m =>
      rw [hci] at h
      have h2 : (modifyFrom m.childrenOf f rest).map
          (fun ch2 => ch.set i (.mk m.elementOf ch2)) = some ch' := h
      cases hrec : modifyFrom m.childrenOf f rest with
      | none => rw [hrec] at h2; exact Option.noConfusion h2
      | some ch2' =>
        rw [hrec] at h2
        simp only [Option.map_some', Option.some.injEq] at h2
        subst h2
        rcases List.mem_or_eq_of_mem_set hc with hmem | rfl
        · exact hcons c hmem
        · have hm := hcons m (List.getElem?_mem hci)
          cases m with
          | mk el2 ch2 =>
            cases hm with
            | mk hpos2 hsize2 hch2 =>
              exact NodeConsistent.mk hpos2 hsize2
                (fun c2 hc2 => ih ch2 ch2' f hf _ _ hrec hch2 c2 hc2)

theorem modifyFrom_consistent_root
    (path : ElementId) (u u' : Ui) (f : UiElementInner → UiElementInner)
    (hfn : ∀ (p2 s2 : Point2 ℚ) (m : UiElementInner),
      NodeConsistent p2 s2 m → NodeConsistent p2 s2 (f m))
    (hfr : ∀ m : UiElementInner, RootConsistent m → RootConsistent (f m))
    (h : modifyFrom u f path = some u') (hcons : uiConsistent u) :
    uiConsistent u' := by
  cases path with
  | last i =>
    rw [modifyFrom] at h
    cases hci : u[i]? with
    | none => rw [hci] at h; exact absurd h (by simp)
    | some m =>
      rw [hci] at h
      simp only [Option.some.injEq] at h
      subst h
      intro c hc
      rcases List.mem_or_eq_of_mem_set hc with hmem | rfl
      · exact hcons c hmem
      · exact hfr m (hcons m (List.getElem?_mem hci))
  | cons i rest =>
    rw [modifyFrom] at h
    cases hci : u[i]? with
    | none => rw [hci] at h; exact Option.noConfusion h
    | some m =>
      rw [hci] at h
      have h2 : (modifyFrom m.childrenOf f rest).map
          (fun ch2 => List.set u i (UiElementInner.mk m.elementOf ch2)) =
          some u' := h
      cases hrec : modifyFrom m.childrenOf f rest with
      | none => rw [hrec] at h2; exact Option.noConfusion h2
      | some ch2' =>
        rw [hrec] at h2
        simp only [Option.map_some', Option.some.injEq] at h2
        subst h2
        intro c hc
        rcases List.mem_or_eq_of_mem_set hc with hmem | rfl
        · exact hcons c hmem
        · have hm := hcons m (List.getElem?_mem hci)
          cases m with
          | mk el2 ch2 =>
            cases hm with
            | mk hpos2 hsize2 hch2 =>
              exact RootConsistent.mk hpos2 hsize2
                (fun c2 hc2 =>
                  modifyFrom_consistent rest ch2 ch2' f hfn _ _ hrec hch2 c2 hc2)

theorem setFromNode_consistent :
    ∀ (path : ElementId) (el : UiElementGlobal) (ch : List UiElementInner)
      (idp : UiAnimatableId) (v : ℚ) (n' : UiElementInner),
      setFromNode (.mk el ch) path idp v = some n' →
      ∃ ch', n' = .mk el ch' ∧
        ((∀ c ∈ ch, NodeConsistent el.global_pos el.global_size c) →
          ∀ c ∈ ch', NodeConsistent el.global_pos el.global_size c) := by
  intro path
  induction path with
  | last i =>
    intro el ch idp v n' h
    rw [setFromNode] at h
    cases hci : ch[i]? with
    | none => rw [hci] at h; exact Option.noConfusion h
    | some c =>
      rw [hci] at h
      have h2 : some (UiElementInner.mk el
          (ch.set i (updateChild el.global_pos el.global_size
            (mutateIntrinsic c idp v)))) = some n' := h
      simp only [Option.some.injEq] at h2
      refine ⟨_, h2.symm, ?_⟩
      intro hcons c' hc'
      rcases List.mem_or_eq_of_mem_set hc' with hmem | rfl
      · exact hcons c' hmem
      · exact updateChild_consistent _ _ _
  | cons i rest ih =>
    intro el ch idp v n' h
    rw [setFromNode] at h
    cases hci : ch[i]? with
    | none => rw [hci] at h; exact Option.noConfusion h
    | some c =>
      rw [hci] at h
      have h2 : (setFromNode c rest idp v).map
          (fun c' => UiElementInner.mk el (ch.set i c')) = some n' := h
      cases c with
      | mk el2 ch2 =>
        cases hrec : setFromNode (.mk el2 ch2) rest idp v with
        | none => rw [hrec] at h2; exact Option.noConfusion h2
        | some c' =>
          rw [hrec] at h2
          simp only [Option.map_some', Option.some.injEq] at h2
          obtain ⟨ch2', hc'eq, hc'cons⟩ := ih el2 ch2 idp v c' hrec
          refine ⟨_, h2.symm, ?_⟩
          intro hcons cc hcc
          rcases List.mem_or_eq_of_mem_set hcc with hmem | rfl
          · exact hcons cc hmem
          · have hm := hcons (.mk el2 ch2) (List.getElem?_mem hci)
            cases hm with
            | mk hpos2 hsize2 hch2 =>
              subst hc'eq
              exact NodeConsistent.mk hpos2 hsize2 (hc'cons hch2)

theorem Ui.set_consistent (u u' : Ui) (path : ElementId)
    (idp : UiAnimatableId) (v : ℚ)
    (h : Ui.set u path idp v = some u') (hcons : uiConsistent u) :
    uiConsistent u' := by
  cases path with
  | last i =>
    rw [Ui.set] at h
    cases hci : u[i]? with
    | none => rw [hci] at h; exact Option.noConfusion h
    | some r =>
      rw [hci] at h
      have h2 : some (List.set u i (updateRoot (mutateIntrinsic r idp v))) =
        some u' := h
      simp only [Option.some.injEq] at h2
      subst h2
      intro c hc
      rcases List.mem_or_eq_of_mem_set hc with hmem | rfl
      · exact hcons c hmem
      · exact updateRoot_consistent _
  | cons i rest =>
    rw [Ui.set] at h
    cases hci : u[i]? with
    | none => rw [hci] at h; exact Option.noConfusion h
    | some r =>
      rw [hci] at h
      have h2 : (setFromNode r rest idp v).map (fun r' => List.set u i r') =
        some u' := h
      cases r with
      | mk el ch =>
        cases hrec : setFromNode (.mk el ch) rest idp v with
        | none => rw [hrec] at h2; exact Option.noConfusion h2
        | some r' =>
          rw [hrec] at h2
          simp only [Option.map_some', Option.some.injEq] at h2
          subst h2
          obtain ⟨ch', hr'eq, hr'cons⟩ := setFromNode_consistent rest el ch idp v r' hrec
          intro c hc
          rcases List.mem_or_eq_of_mem_set hc with hmem | rfl
          · exact hcons c hmem
          · have hm := hcons (.mk el ch) (List.getElem?_mem hci)
            cases hm with
            | mk hpos hsize hch =>
              subst hr'eq
              exact RootConsistent.mk hpos hsize (hr'cons hch)

theorem Ui.push_consistent (u : Ui) (e : UiElement) (hcons : uiConsistent u) :
    uiConsistent (Ui.push u e).1 := by
  intro c hc
  rw [Ui.push] at hc
  rw [List.mem_append, List.mem_singleton] at hc
  rcases hc with hmem | rfl
  · exact hcons c hmem
  · exact RootConsistent.mk rfl rfl (fun c hc => absurd hc (List.not_mem_nil c))

theorem Ui.pushChild_consistent (u u' : Ui) (pid : ElementId) (e : UiElement)
    (id' : ElementId) (h : Ui.pushChild u pid e = some (u', id'))
    (hcons : uiConsistent u) : uiConsistent u' := by
  rw [Ui.pushChild] at h
  cases hget : getFrom u pid with
  | none => rw [hget] at h; exact Option.noConfusion h
  | some p =>
    rw [hget] at h
    have h2 : (modifyFrom u (fun n => (pushChildNode n e).1) pid).map
        (fun u2 => (u2, pid.push p.childrenOf.length)) = some (u', id') := h
    cases hmod : modifyFrom u (fun n => (pushChildNode n e).1) pid with
    | none => rw [hmod] at h2; exact Option.noConfusion h2
    | some u2 =>
      rw [hmod] at h2
      simp only [Option.map_some', Option.some.injEq, Prod.mk.injEq] at h2
      obtain ⟨h1, _⟩ := h2
      subst h1
      exact modifyFrom_consistent_root pid u _ _
        (fun p2 s2 m hm => pushChildNode_consistent_node p2 s2 m e hm)
        (fun m hm => pushChildNode_consistent_root m e hm) hmod hcons

theorem applyOp_consistent (u u' : Ui) (op : UiOp)
    (h : applyOp u op = some u') (hcons : uiConsistent u) : uiConsistent u' := by
  cases op with
  | push e =>
    rw [applyOp] at h
    simp only [Option.some.injEq] at h
    subst h
    exact Ui.push_consistent u e hcons
  | pushChild pid e =>
    rw [applyOp] at h
    cases hpc : Ui.pushChild u pid e with
    | none => rw [hpc] at h; exact absurd h (by simp)
    | some pr =>
      rw [hpc] at h
      simp only [Option.map_some', Option.some.injEq] at h
      subst h
      exact Ui.pushChild_consistent u pr.1 pid e pr.2 (by rw [hpc]) hcons
  | setVal path idp v =>
    rw [applyOp] at h
    exact Ui.set_consistent u u' path idp v h hcons

theorem applyOps_consistent :
    ∀ (ops : List UiOp) (u0 u : Ui), uiConsistent u0 →
      applyOps u0 ops = some u → uiConsistent u := by
  intro ops
  induction ops with
  | nil =>
    intro u0 u hcons h
    rw [applyOps] at h
    simp only [Option.some.injEq] at h
    subst h
    exact hcons
  | cons op rest ih =>
    intro u0 u hcons h
    rw [applyOps] at h
    cases hop : applyOp u0 op with
    | none => rw [hop] at h; exact absurd h (by simp)
    | some u1 =>
      rw [hop] at h
      exact ih u1 u (applyOp_consistent u0 u1 op hop hcons) h

theorem elemAt_last (ch : List UiElementInner) (j : ℕ) :
    elemAt ch (.last j) = ch[j]?.map UiElementInner.elementOf := by
  unfold elemAt
  rw [getFrom]

theorem elemAt_cons_none {ch : List UiElementInner} {j : ℕ} (t : ElementId)
    (h : ch[j]? = none) : elemAt ch (.cons j t) = none := by
  unfold elemAt
  rw [getFrom, h]
  rfl

theorem elemAt_cons_some {ch : List UiElementInner} {j : ℕ}
    {m : UiElementInner} (t : ElementId) (h : ch[j]? = some m) :
    elemAt ch (.cons j t) = elemAt m.childrenOf t := by
  unfold elemAt
  rw [getFrom, h]

theorem innerAt_last (ch : List UiElementInner) (j : ℕ) :
    innerAt ch (.last j) = ch[j]?.map (fun m => m.elementOf.inner) := by
  unfold innerAt
  rw [getFrom]

theorem innerAt_cons_none {ch : List UiElementInner} {j : ℕ} (t : ElementId)
    (h : ch[j]? = none) : innerAt ch (.cons j t) = none := by
  unfold innerAt
  rw [getFrom, h]
  rfl

theorem innerAt_cons_some {ch : List UiElementInner} {j : ℕ}
    {m : UiElementInner} (t : ElementId) (h : ch[j]? = some m) :
    innerAt ch (.cons j t) = innerAt m.childrenOf t := by
  unfold innerAt
  rw [getFrom, h]

theorem getElem?_set_of_some {α : Type} {l : List α} {i : ℕ} {a : α} (b : α)
    (h : l[i]? = some a) : (l.set i b)[i]? = some b := by
  rw [List.getElem?_set_self]
  exact (List.getElem?_eq_some.mp h).1

theorem mutateIntrinsic_inner (n : UiElementInner) (idp : UiAnimatableId)
    (v : ℚ) :
    (mutateIntrinsic n idp v).elementOf.inner =
      mutateScalar n.elementOf.inner idp v := rfl

theorem mutateIntrinsic_children (n : UiElementInner) (idp : UiAnimatableId)
    (v : ℚ) : (mutateIntrinsic n idp v).childrenOf = n.childrenOf := rfl

theorem updateRoot_mk (el : UiElementGlobal) (ch : List UiElementInner) :
    updateRoot (.mk el ch) =
      .mk ⟨el.inner, el.inner.size, el.inner.pos⟩
        (ch.map (updateChild el.inner.pos el.inner.size)) := rfl

theorem setFromNode_effects :
    ∀ (path : ElementId) (el : UiElementGlobal) (ch : List UiElementInner)
      (idp : UiAnimatableId) (v : ℚ) (n' : UiElementInner),
      setFromNode (.mk el ch) path idp v = some n' →
      ∃ ch', n' = .mk el ch' ∧
        (∀ q, ¬ inSubtree path q → elemAt ch' q = elemAt ch q) ∧
        innerAt ch' path =
          (innerAt ch path).map (fun e => mutateScalar e idp v) ∧
        (∀ q, inSubtree path q → q ≠ path → innerAt ch' q = innerAt ch q) := by
  intro path
  induction path with
  | last i =>
    intro el ch idp v n' h
    have h2 : (match ch[i]? with
        | none => none
        | some c => some (UiElementInner.mk el (ch.set i
            (updateChild el.global_pos el.global_size
              (mutateIntrinsic c idp v))))) = some n' := h
    cases hci : ch[i]? with
    | none => rw [hci] at h2; exact Option.noConfusion h2
    | some c =>
      rw [hci] at h2
      have h3 : some (UiElementInner.mk el (ch.set i
          (updateChild el.global_pos el.global_size
            (mutateIntrinsic c idp v)))) = some n' := h2
      injection h3 with h4
      refine ⟨_, h4.symm, ?_, ?_, ?_⟩
      · intro q hq
        cases q with
        | last j =>
          by_cases hij : i = j
          · subst hij
            exact absurd rfl hq
          · rw [elemAt_last, elemAt_last, List.getElem?_set_ne hij]
        | cons j t =>
          by_cases hij : i = j
          · subst hij
            exact absurd rfl hq
          · have hset : (ch.set i (updateChild el.global_pos el.global_size
                (mutateIntrinsic c idp v)))[j]? = ch[j]? :=
              List.getElem?_set_ne hij
            cases hj : ch[j]? with
            | none => rw [elemAt_cons_none t (hset.trans hj), elemAt_cons_none t hj]
            | some m =>
              rw [elemAt_cons_some t (hset.trans hj), elemAt_cons_some t hj]
      · rw [innerAt_last, innerAt_last, getElem?_set_of_some _ hci, hci]
        simp only [Option.map_some']
        rw [updateChild_inner, mutateIntrinsic_inner]
      · intro q hq hne
        cases q with
        | last j =>
          have hij : i = j := hq
          subst hij
          exact absurd rfl hne
        | cons j t =>
          have hij : i = j := hq
          subst hij
          rw [innerAt_cons_some t (getElem?_set_of_some _ hci),
            innerAt_cons_some t hci]
          cases c with
          | mk el2 ch2 =>
            show innerAt (updateChild el.global_pos el.global_size
              (mutateIntrinsic (.mk el2 ch2) idp v)).childrenOf t =
              innerAt ch2 t
            rw [show mutateIntrinsic (.mk el2 ch2) idp v =
                UiElementInner.mk ⟨mutateScalar el2.inner idp v,
                  el2.global_size, el2.global_pos⟩ ch2 from rfl,
              childrenOf_updateChild, innerAt_map_updateChild]
  | cons i rest ih =>
    intro el ch idp v n' h
    have h2 : (match ch[i]? with
        | none => none
        | some c => (setFromNode c rest idp v).map
            (fun c' => UiElementInner.mk el (ch.set i c'))) = some n' := h
    cases hci : ch[i]? with
    | none => rw [hci] at h2; exact Option.noConfusion h2
    | some c =>
      rw [hci] at h2
      have h3 : (setFromNode c rest idp v).map
          (fun c' => UiElementInner.mk el (ch.set i c')) = some n' := h2
      cases c with
      | mk el2 ch2 =>
        cases hrec : setFromNode (.mk el2 ch2) rest idp v with
        | none => rw [hrec] at h3; exact Option.noConfusion h3
        | some c' =>
          rw [hrec] at h3
          simp only [Option.map_some', Option.some.injEq] at h3
          obtain ⟨ch2', hc'eq, ha2, hb2, hc2⟩ := ih el2 ch2 idp v c' hrec
          subst hc'eq
          refine ⟨_, h3.symm, ?_, ?_, ?_⟩
          · intro q hq
            cases q with
            | last j =>
              by_cases hij : i = j
              · subst hij
                rw [elemAt_last, elemAt_last, getElem?_set_of_some _ hci, hci]
                rfl
              · rw [elemAt_last, elemAt_last, List.getElem?_set_ne hij]
            | cons j t =>
              by_cases hij : i = j
              · subst hij
                have hq2 : ¬ inSubtree rest t := fun hc => hq ⟨rfl, hc⟩
                rw [elemAt_cons_some t (getElem?_set_of_some _ hci),
                  elemAt_cons_some t hci]
                exact ha2 t hq2
              · have hset : (ch.set i (UiElementInner.mk el2 ch2'))[j]? =
                    ch[j]? := List.getElem?_set_ne hij
                cases hj : ch[j]? with
                | none =>
                  rw [elemAt_cons_none t (hset.trans hj), elemAt_cons_none t hj]
                | some m =>
                  rw [elemAt_cons_some t (hset.trans hj), elemAt_cons_some t hj]
          · rw [innerAt_cons_some rest (getElem?_set_of_some _ hci),
              innerAt_cons_some rest hci]
            exact hb2
          · intro q hq hne
            cases q with
            | last j =>
              exact absurd hq (by simp [inSubtree])
            | cons j t =>
              have hij : i = j := hq.1
              subst hij
              rw [innerAt_cons_some t (getElem?_set_of_some _ hci),
                innerAt_cons_some t hci]
              exact hc2 t hq.2 (fun heq => hne (by rw [heq]))

theorem updateRoot_inner (n : UiElementInner) :
    (updateRoot n).elementOf.inner = n.elementOf.inner := by
  cases n
  rfl

theorem Point2.add_def (a b : Point2 ℚ) : a + b = ⟨a.x + b.x, a.y + b.y⟩ := rfl

theorem Point2.mul_def (a b : Point2 ℚ) : a * b = ⟨a.x * b.x, a.y * b.y⟩ := rfl

/-! ## Claim theorems: UI tree -/

/-- C1: starting from the empty `Ui`, after any sequence of `push`,
`push_child` and Animatable `set` calls (each succeeding), every non-root
node satisfies `global_pos = parent.global_pos + intrinsic.pos *
parent.global_size` and `global_size = intrinsic.size *
parent.global_size`, and every root satisfies `global = intrinsic`,
immediately after the last operation returns. -/
theorem c1_geometry_invariant (ops : List UiOp) (u : Ui)
    (h : applyOps [] ops = some u) : uiConsistent u :=
  applyOps_consistent ops [] u (fun r hr => absurd hr (List.not_mem_nil r)) h

/-- C1 witness: push a root, push a child under it, then `set` the
child's `ScaleX`; the resulting concrete forest is consistent. -/
theorem c1_geometry_invariant_witness :
    applyOps []
        [UiOp.push ⟨.Panel, ⟨1/4, 1/4⟩, ⟨1/2, 1/2⟩, 0⟩,
          UiOp.pushChild (.last 0) ⟨.Button, ⟨1/2, 1/2⟩, ⟨1/2, 1/2⟩, 1⟩,
          UiOp.setVal (.cons 0 (.last 0)) .ScaleX (1/4)] =
      some [UiElementInner.mk
        ⟨⟨.Panel, ⟨1/4, 1/4⟩, ⟨1/2, 1/2⟩, 0⟩, ⟨1/2, 1/2⟩, ⟨1/4, 1/4⟩⟩
        [UiElementInner.mk
          ⟨⟨.Button, ⟨1/2, 1/2⟩, ⟨1/4, 1/2⟩, 1⟩, ⟨1/8, 1/4⟩, ⟨1/2, 1/2⟩⟩ []]] ∧
    uiConsistent [UiElementInner.mk
      ⟨⟨.Panel, ⟨1/4, 1/4⟩, ⟨1/2, 1/2⟩, 0⟩, ⟨1/2, 1/2⟩, ⟨1/4, 1/4⟩⟩
      [UiElementInner.mk
        ⟨⟨.Button, ⟨1/2, 1/2⟩, ⟨1/4, 1/2⟩, 1⟩, ⟨1/8, 1/4⟩, ⟨1/2, 1/2⟩⟩ []]] := by
  have heval : applyOps []
      [UiOp.push ⟨.Panel, ⟨1/4, 1/4⟩, ⟨1/2, 1/2⟩, 0⟩,
        UiOp.pushChild (.last 0) ⟨.Button, ⟨1/2, 1/2⟩, ⟨1/2, 1/2⟩, 1⟩,
        UiOp.setVal (.cons 0 (.last 0)) .ScaleX (1/4)] =
      some [UiElementInner.mk
        ⟨⟨.Panel, ⟨1/4, 1/4⟩, ⟨1/2, 1/2⟩, 0⟩, ⟨1/2, 1/2⟩, ⟨1/4, 1/4⟩⟩
        [UiElementInner.mk
          ⟨⟨.Button, ⟨1/2, 1/2⟩, ⟨1/4, 1/2⟩, 1⟩, ⟨1/8, 1/4⟩, ⟨1/2, 1/2⟩⟩ []]] := by
    simp only [applyOps, applyOp, Ui.push, Ui.pushChild, Ui.set, getFrom,
      modifyFrom, pushChildNode, setFromNode, updateChild_mk, updateRoot,
      mutateIntrinsic, mutateScalar, UiElementInner.newNode,
      UiElementInner.childrenOf, UiElementInner.elementOf, ElementId.push,
      Point2.add_def, Point2.mul_def, List.map_nil, List.length_nil,
      List.nil_append, List.getElem?_cons_zero, List.set, Option.bind_some,
      Option.map_some']
    norm_num
    rw [setFromNode.eq_def]
    simp only [updateChild_mk, mutateIntrinsic, mutateScalar,
      UiElementInner.childrenOf, UiElementInner.elementOf,
      Point2.add_def, Point2.mul_def, List.map_nil,
      List.getElem?_cons_zero, List.set, Option.map_some']
    norm_num
  exact ⟨heval, c1_geometry_invariant _ _ heval⟩

/-- C7: `set(property_id, value)` through the Animatable capability
mutates exactly one intrinsic scalar of the addressed node and recomputes
cached global geometry only inside the subtree rooted there: every node
outside that subtree keeps its entire cached element (intrinsic data and
global geometry) unchanged, the target's intrinsic data changes exactly
by `mutateScalar`, every strict descendant keeps its intrinsic data, and
`mutateScalar` touches exactly the one addressed scalar (kind, texture,
the other geometry pair and the sibling component are untouched). -/
theorem c7_set_frame_effect (u u' : Ui) (path : ElementId)
    (idp : UiAnimatableId) (v : ℚ) (h : Ui.set u path idp v = some u') :
    (∀ q, ¬ inSubtree path q → elemAt u' q = elemAt u q) ∧
    innerAt u' path = (innerAt u path).map (fun e => mutateScalar e idp v) ∧
    (∀ q, inSubtree path q → q ≠ path → innerAt u' q = innerAt u q) ∧
    (∀ e : UiElement,
      (mutateScalar e idp v).kind = e.kind ∧
      (mutateScalar e idp v).texture = e.texture ∧
      ((mutateScalar e idp v).pos = e.pos ∨ (mutateScalar e idp v).size = e.size) ∧
      ((mutateScalar e idp v).pos.x = e.pos.x ∨ (mutateScalar e idp v).pos.y = e.pos.y) ∧
      ((mutateScalar e idp v).size.x = e.size.x ∨ (mutateScalar e idp v).size.y = e.size.y) ∧
      (idp = .ScaleX → (mutateScalar e idp v).size.x = v) ∧
      (idp = .ScaleY → (mutateScalar e idp v).size.y = v) ∧
      (idp = .PositionX → (mutateScalar e idp v).pos.x = v) ∧
      (idp = .PositionY → (mutateScalar e idp v).pos.y = v)) := by
  have hscalar : ∀ e : UiElement,
      (mutateScalar e idp v).kind = e.kind ∧
      (mutateScalar e idp v).texture = e.texture ∧
      ((mutateScalar e idp v).pos = e.pos ∨ (mutateScalar e idp v).size = e.size) ∧
      ((mutateScalar e idp v).pos.x = e.pos.x ∨ (mutateScalar e idp v).pos.y = e.pos.y) ∧
      ((mutateScalar e idp v).size.x = e.size.x ∨ (mutateScalar e idp v).size.y = e.size.y) ∧
      (idp = .ScaleX → (mutateScalar e idp v).size.x = v) ∧
      (idp = .ScaleY → (mutateScalar e idp v).size.y = v) ∧
      (idp = .PositionX → (mutateScalar e idp v).pos.x = v) ∧
      (idp = .PositionY → (mutateScalar e idp v).pos.y = v) := by
    intro e
    cases idp <;> simp [mutateScalar]
  cases path with
  | last i =>
    rw [Ui.set] at h
    cases hci : u[i]? with
    | none => rw [hci] at h; exact Option.noConfusion h
    | some r =>
      rw [hci] at h
      have h2 : some (List.set u i (updateRoot (mutateIntrinsic r idp v))) =
        some u' := h
      injection h2 with h3
      subst h3
      refine ⟨?_, ?_, ?_, hscalar⟩
      · intro q hq
        cases q with
        | last j =>
          by_cases hij : i = j
          · subst hij
            exact absurd rfl hq
          · rw [elemAt_last, elemAt_last, List.getElem?_set_ne hij]
        | cons j t =>
          by_cases hij : i = j
          · subst hij
            exact absurd rfl hq
          · have hset : (List.set u i (updateRoot (mutateIntrinsic r idp v)))[j]? =
                u[j]? := List.getElem?_set_ne hij
            cases hj : u[j]? with
            | none =>
              rw [elemAt_cons_none t (hset.trans hj), elemAt_cons_none t hj]
            | some m =>
              rw [elemAt_cons_some t (hset.trans hj), elemAt_cons_some t hj]
      · rw [innerAt_last, innerAt_last, getElem?_set_of_some _ hci, hci]
        simp only [Option.map_some']
        rw [updateRoot_inner, mutateIntrinsic_inner]
      · intro q hq hne
        cases q with
        | last j =>
          have hij : i = j := hq
          subst hij
          exact absurd rfl hne
        | cons j t =>
          have hij : i = j := hq
          subst hij
          rw [innerAt_cons_some t (getElem?_set_of_some _ hci),
            innerAt_cons_some t hci]
          cases r with
          | mk el2 ch2 =>
            show innerAt (updateRoot
              (mutateIntrinsic (.mk el2 ch2) idp v)).childrenOf t =
              innerAt ch2 t
            rw [show mutateIntrinsic (.mk el2 ch2) idp v =
                UiElementInner.mk ⟨mutateScalar el2.inner idp v,
                  el2.global_size, el2.global_pos⟩ ch2 from rfl,
              updateRoot_mk]
            exact innerAt_map_updateChild t ch2 _ _
  | cons i rest =>
    rw [Ui.set] at h
    cases hci : u[i]? with
    | none => rw [hci] at h; exact Option.noConfusion h
    | some r =>
      rw [hci] at h
      have h2 : (setFromNode r rest idp v).map (fun r' => List.set u i r') =
        some u' := h
      cases r with
      | mk el ch =>
        cases hrec : setFromNode (.mk el ch) rest idp v with
        | none => rw [hrec] at h2; exact Option.noConfusion h2
        | some r' =>
          rw [hrec] at h2
          simp only [Option.map_some', Option.some.injEq] at h2
          subst h2
          obtain ⟨ch', hr'eq, ha, hb, hc⟩ := setFromNode_effects rest el ch idp v r' hrec
          subst hr'eq
          refine ⟨?_, ?_, ?_, hscalar⟩
          · intro q hq
            cases q with
            | last j =>
              by_cases hij : i = j
              · subst hij
                rw [elemAt_last, elemAt_last, getElem?_set_of_some _ hci, hci]
                rfl
              · rw [elemAt_last, elemAt_last, List.getElem?_set_ne hij]
            | cons j t =>
              by_cases hij : i = j
              · subst hij
                have hq2 : ¬ inSubtree rest t := fun hcon => hq ⟨rfl, hcon⟩
                rw [elemAt_cons_some t (getElem?_set_of_some _ hci),
                  elemAt_cons_some t hci]
                exact ha t hq2
              · have hset : (List.set u i (UiElementInner.mk el ch'))[j]? =
                    u[j]? := List.getElem?_set_ne hij
                cases hj : u[j]? with
                | none =>
                  rw [elemAt_cons_none t (hset.trans hj), elemAt_cons_none t hj]
                | some m =>
                  rw [elemAt_cons_some t (hset.trans hj), elemAt_cons_some t hj]
          · rw [innerAt_cons_some rest (getElem?_set_of_some _ hci),
              innerAt_cons_some rest hci]
            exact hb
          · intro q hq hne
            cases q with
            | last j =>
              exact absurd hq (by simp [inSubtree])
            | cons j t =>
              have hij : i = j := hq.1
              subst hij
              rw [innerAt_cons_some t (getElem?_set_of_some _ hci),
                innerAt_cons_some t hci]
              exact hc t hq.2 (fun heq => hne (by rw [heq]))

/-- C7 witness: in the concrete two-node forest, `set` of `ScaleX` on the
child recomputes only the child's subtree; the root's element, the
target's mutated intrinsic data, and the scalar granularity are as the
theorem states. -/
theorem c7_set_frame_effect_witness :
    Ui.set
        [UiElementInner.mk
          ⟨⟨.Panel, ⟨1/4, 1/4⟩, ⟨1/2, 1/2⟩, 0⟩, ⟨1/2, 1/2⟩, ⟨1/4, 1/4⟩⟩
          [UiElementInner.mk
            ⟨⟨.Button, ⟨1/2, 1/2⟩, ⟨1/2, 1/2⟩, 1⟩, ⟨1/4, 1/4⟩, ⟨1/2, 1/2⟩⟩ []]]
        (.cons 0 (.last 0)) .ScaleX (1/4) =
      some [UiElementInner.mk
        ⟨⟨.Panel, ⟨1/4, 1/4⟩, ⟨1/2, 1/2⟩, 0⟩, ⟨1/2, 1/2⟩, ⟨1/4, 1/4⟩⟩
        [UiElementInner.mk
          ⟨⟨.Button, ⟨1/2, 1/2⟩, ⟨1/4, 1/2⟩, 1⟩, ⟨1/8, 1/4⟩, ⟨1/2, 1/2⟩⟩ []]] ∧
    innerAt
        [UiElementInner.mk
          ⟨⟨.Panel, ⟨1/4, 1/4⟩, ⟨1/2, 1/2⟩, 0⟩, ⟨1/2, 1/2⟩, ⟨1/4, 1/4⟩⟩
          [UiElementInner.mk
            ⟨⟨.Button, ⟨1/2, 1/2⟩, ⟨1/4, 1/2⟩, 1⟩, ⟨1/8, 1/4⟩, ⟨1/2, 1/2⟩⟩ []]]
        (.cons 0 (.last 0)) =
      (innerAt
        [UiElementInner.mk
          ⟨⟨.Panel, ⟨1/4, 1/4⟩, ⟨1/2, 1/2⟩, 0⟩, ⟨1/2, 1/2⟩, ⟨1/4, 1/4⟩⟩
          [UiElementInner.mk
            ⟨⟨.Button, ⟨1/2, 1/2⟩, ⟨1/2, 1/2⟩, 1⟩, ⟨1/4, 1/4⟩, ⟨1/2, 1/2⟩⟩ []]]
        (.cons 0 (.last 0))).map (fun e => mutateScalar e .ScaleX (1/4)) := by
  have heval : Ui.set
      [UiElementInner.mk
        ⟨⟨.Panel, ⟨1/4, 1/4⟩, ⟨1/2, 1/2⟩, 0⟩, ⟨1/2, 1/2⟩, ⟨1/4, 1/4⟩⟩
        [UiElementInner.mk
          ⟨⟨.Button, ⟨1/2, 1/2⟩, ⟨1/2, 1/2⟩, 1⟩, ⟨1/4, 1/4⟩, ⟨1/2, 1/2⟩⟩ []]]
      (.cons 0 (.last 0)) .ScaleX (1/4) =
      some [UiElementInner.mk
        ⟨⟨.Panel, ⟨1/4, 1/4⟩, ⟨1/2, 1/2⟩, 0⟩, ⟨1/2, 1/2⟩, ⟨1/4, 1/4⟩⟩
        [UiElementInner.mk
          ⟨⟨.Button, ⟨1/2, 1/2⟩, ⟨1/4, 1/2⟩, 1⟩, ⟨1/8, 1/4⟩, ⟨1/2, 1/2⟩⟩ []]] := by
    simp only [Ui.set, List.getElem?_cons_zero]
    rw [setFromNode.eq_def]
    simp only [updateChild_mk, mutateIntrinsic, mutateScalar,
      UiElementInner.childrenOf, UiElementInner.elementOf,
      Point2.add_def, Point2.mul_def, List.map_nil,
      List.getElem?_cons_zero, List.set, Option.map_some']
    norm_num
  exact ⟨heval, (c7_set_frame_effect _ _ _ _ _ heval).2.1⟩

/-- C3: `Ui::click` returns exactly the first entry of the full pre-order
walk of the forest (insertion order of roots, children depth-first
left-to-right) whose kind is `Button` and whose global rectangle contains
the pointer with inclusive bounds on all four edges, and `none` when no
entry matches.  First-match semantics over the full pre-order list in
particular means: no sibling after a non-matching node is skipped, a
`Panel` never matches but its children are still searched, and nothing
after the first match (including its children) can override it. -/
theorem c3_click_first_preorder_hit (u : Ui) (pos : Point2 ℚ) :
    Ui.click u pos =
      ((preorderRoots 0 u).find? (specClickHit pos)).map Prod.fst := by
  rw [Ui.click]
  exact clickRoots_eq pos u 0

end Tiles

